import Mathlib

/-!
Verification of the particle-animation engine of `GracefullNodeNetwork.tsx`
(the core of the `my-portfolio` repository).

The engine's numeric code runs on IEEE doubles; it is embedded here as exact
arithmetic: purely order-theoretic / rational computations (the spatial grid,
the toroidal wraparound, the resize particle-count formula, the bounded
nearest-neighbor buffer) are modelled over `ℚ` and stay executable, while the
transcendental parts (`Math.hypot`, `Math.sin/cos` in the flow field) are
modelled over `ℝ`.  `Math.random()` values and `performance.now()` timestamps
are passed in as explicit oracle parameters.
-/

namespace NodeNetwork

/-! ## Utility math (source lines 39-64) -/

/-- `clamp` from the source: `Math.max(lo, Math.min(hi, v))`, polymorphic over
the numeric type the caller uses. -/
def clamp {α : Type} [LinearOrder α] (v lo hi : α) : α := max lo (min hi v)

/-- `Math.hypot x y = √(x² + y²)`, the vector length used throughout the
source (`length`, `normalize`, speed computations). -/
noncomputable def hypot (x y : ℝ) : ℝ := Real.sqrt (x ^ 2 + y ^ 2)

/-- The source's `length` helper is exactly `Math.hypot`. -/
noncomputable def vlength (x y : ℝ) : ℝ := hypot x y

/-- `normalize` from the source: divides by the length when it exceeds the
`1e-6` epsilon floor and substitutes the zero vector otherwise. -/
noncomputable def normalize (x y : ℝ) : ℝ × ℝ :=
  let L := hypot x y
  if L > 1e-6 then (x / L, y / L) else (0, 0)

/-- `flowDir` from the source: three low-frequency sinusoids combined into an
angle, returned as the corresponding unit vector. -/
noncomputable def flowDir (x y t : ℝ) : ℝ × ℝ :=
  let s1 := Real.sin (0.0009 * x + 0.0007 * y + 0.0005 * t)
  let s2 := Real.sin (0.0013 * x - 0.0004 * y + 0.0008 * t)
  let c1 := Real.cos (0.0006 * x + 0.0009 * y - 0.0007 * t)
  let angle := s1 * 1.1 + s2 * 0.9 + c1 * 0.4
  (Real.cos angle, Real.sin angle)

/-- `smoothstep` from the source. -/
noncomputable def smoothstep (edge0 edge1 x : ℝ) : ℝ :=
  let t := clamp ((x - edge0) / (edge1 - edge0)) 0 1
  t * t * (3 - 2 * t)

/-- `smootherstep` from the source. -/
noncomputable def smootherstep (edge0 edge1 x : ℝ) : ℝ :=
  let t := clamp ((x - edge0) / (edge1 - edge0)) 0 1
  t * t * t * (t * (t * 6 - 15) + 10)

/-! ## Toroidal wraparound (source lines 321-325)

The x- and y-axis cases have identical shape (`width` resp. `height` as the
limit), so one definition covers both.  The source applies two sequential
`if` statements. -/

/-- One coordinate of the soft-wrap step: `if (c < -10) c = limit + 10;
if (c > limit + 10) c = -10` applied in source order. -/
def wrapCoord (limit x : ℚ) : ℚ :=
  let x1 := if x < -10 then limit + 10 else x
  if x1 > limit + 10 then -10 else x1

/-! ## Resize: particle-count target (source lines 149-170) -/

/-- Target particle count computed by `resize`:
`scale = (width*height)/(1920*1080)`; `Math.max(80, Math.floor(220 * scale))`.
`width` and `height` are the already-floored viewport dimensions
(`Math.max(1, Math.floor(window.innerWidth))`, hence naturals). -/
def targetCount (width height : ℕ) : ℕ :=
  let scale : ℚ := (width * height : ℚ) / (1920 * 1080)
  max 80 (Int.toNat ⌊(220 : ℚ) * scale⌋)

/-- The particle-array update performed by `resize` (source lines 161-169),
abstracted over the particle record type `P` and the fresh-particle
constructor `mk` (which models `makeParticle` applied at the given index). -/
def resizeParticles {P : Type} (ps : List P) (target : ℕ) (mk : ℕ → P) :
    List P :=
  if ps.length = 0 then (List.range target).map mk
  else if ps.length < target then
    ps ++ (List.range' ps.length (target - ps.length)).map mk
  else if target < ps.length then ps.take target
  else ps

/-! ## Spatial grid (source lines 66-110)

Cells are modelled as a total function from the flattened index
`cy * cols + cx` to the list of particle indices pushed into that bucket,
which keeps every operation executable. -/

/-- Integer clamp used by `indexFor`/`candidates` (the source reuses the
scalar `clamp` on the result of `Math.floor`). -/
def clampI (v lo hi : ℤ) : ℤ := max lo (min hi v)

structure SpatialGrid where
  cellSize : ℚ
  cols : ℕ
  rows : ℕ
  cells : ℕ → List ℕ

namespace SpatialGrid

/-- `new SpatialGrid(cellSize)` followed by `resize(width, height)`:
`cols = Math.max(1, Math.ceil(width / cellSize))`, likewise `rows`, and all
buckets empty (a freshly cleared grid). -/
def resize (cellSize : ℚ) (width height : ℚ) : SpatialGrid :=
  { cellSize := cellSize
    cols := max 1 (Int.toNat ⌈width / cellSize⌉)
    rows := max 1 (Int.toNat ⌈height / cellSize⌉)
    cells := fun _ => [] }

/-- Clamped cell column of an x-coordinate:
`clamp(Math.floor(x / cellSize), 0, cols - 1)`. -/
def cellX (g : SpatialGrid) (x : ℚ) : ℤ :=
  clampI ⌊x / g.cellSize⌋ 0 ((g.cols : ℤ) - 1)

/-- Clamped cell row of a y-coordinate. -/
def cellY (g : SpatialGrid) (y : ℚ) : ℤ :=
  clampI ⌊y / g.cellSize⌋ 0 ((g.rows : ℤ) - 1)

/-- `indexFor(x, y) = cy * cols + cx` (both factors are clamped to be
nonnegative, so the `ℤ → ℕ` conversion is lossless). -/
def indexFor (g : SpatialGrid) (x y : ℚ) : ℕ :=
  (g.cellY y * g.cols + g.cellX x).toNat

/-- `insert(i, x, y)`: push `i` onto the bucket containing `(x, y)`. -/
def insert (g : SpatialGrid) (i : ℕ) (x y : ℚ) : SpatialGrid :=
  let idx := g.indexFor x y
  { g with cells := Function.update g.cells idx (g.cells idx ++ [i]) }

/-- `candidates(x, y)`: concatenation of the buckets of the 3×3 block around
`(x, y)`'s clamped cell, skipping out-of-range neighbors, in source iteration
order (`oy` outer from −1 to 1, `ox` inner). -/
def candidates (g : SpatialGrid) (x y : ℚ) : List ℕ :=
  let cx := g.cellX x
  let cy := g.cellY y
  (List.range 3).flatMap fun oy =>
    (List.range 3).flatMap fun ox =>
      let nx := cx + (ox : ℤ) - 1
      let ny := cy + (oy : ℤ) - 1
      if 0 ≤ nx ∧ 0 ≤ ny ∧ nx < (g.cols : ℤ) ∧ ny < (g.rows : ℤ) then
        g.cells (ny * g.cols + nx).toNat
      else []

end SpatialGrid

/-- The per-frame reinsertion loop of `stepPhysics` (source lines 235-239):
insert every particle of the list at its current position.  Entries are
`(index, x, y)` triples. -/
def insertAll (g : SpatialGrid) (ps : List (ℕ × ℚ × ℚ)) : SpatialGrid :=
  ps.foldl (fun g t => g.insert t.1 t.2.1 t.2.2) g

/-! ## Particle creation (source lines 172-187)

`makeParticle` draws ten `Math.random()` samples (r1..r10, each in `[0,1)`)
and reads `performance.now()` (`seed`); all are passed as oracle inputs. -/

structure Particle where
  id : ℕ
  p : ℝ × ℝ
  v : ℝ × ℝ
  a : ℝ × ℝ
  o : ℝ × ℝ
  phase : ℝ
  freq : ℝ

/-- `makeParticle` from the source, with the random samples in call order:
position `(r1*width, r2*height)`, flow direction sampled at a jittered
position/time (r3, r4, r5), speed `baseSpeed * (0.6 + r6*0.8)`, field offset
(r7, r8), phase (r9), frequency (r10). -/
noncomputable def makeParticle (width height : ℝ)
    (r1 r2 r3 r4 r5 r6 r7 r8 r9 r10 : ℝ) (seed : ℝ) (id : ℕ) : Particle :=
  let p : ℝ × ℝ := (r1 * width, r2 * height)
  let dir := flowDir (p.1 + r3 * 1000) (p.2 + r4 * 1000) (seed + r5 * 1000)
  let speed := 40 * (0.6 + r6 * 0.8)
  { id := id
    p := p
    v := (dir.1 * speed, dir.2 * speed)
    a := (0, 0)
    o := (r7 * 10000, r8 * 10000)
    phase := r9 * Real.pi * 2
    freq := 0.2 + r10 * 0.6 }

/-! ## Physics step: force contributions (source lines 241-291)

The degenerate-input claims concern the pointer-avoidance and wave-impulse
contributions of one particle, so those are embedded as standalone
functions of the relevant state. -/

/-- Pointer-avoidance acceleration contribution (source lines 260-272):
active only when the pointer is inside; within `mouseAvoidRadius = 110` the
magnitude is `350 * falloff²` with `falloff = 1 - smoothstep(0, 110, d)`,
directed along `normalize(p - mouse)`. -/
noncomputable def mouseAccel (inside : Bool) (px py mx my : ℝ) : ℝ × ℝ :=
  if inside then
    let dx := px - mx
    let dy := py - my
    let d := hypot dx dy
    if d < 110 then
      let falloff := 1 - smoothstep 0 110 d
      let force := 350 * falloff * falloff
      let n := normalize dx dy
      (n.1 * force, n.2 * force)
    else (0, 0)
  else (0, 0)

/-- Wave-impulse acceleration contribution of one wave (source lines
274-290): ring radius `r = (now - t0) * 0.001 * 800`; within the
`waveThickness = 90` band around `r` the magnitude is
`900 * (1 - smootherstep(0, 90, band))`, directed along
`normalize(p - origin)`. -/
noncomputable def waveAccel (px py ox oy now t0 : ℝ) : ℝ × ℝ :=
  let r := (now - t0) * 0.001 * 800
  let dx := px - ox
  let dy := py - oy
  let d := hypot dx dy
  let band := |d - r|
  if band < 90 then
    let strength := 900 * (1 - smootherstep 0 90 band)
    let n := normalize dx dy
    (n.1 * strength, n.2 * strength)
  else (0, 0)

/-! ## Physics step: velocity integration (source lines 293-342)

The stages are split exactly as in the source loop: damping, hard speed
clamp, minimum-drift injection, then (after the wraparound and wave pruning)
the optional global wave drag applied when any wave is active. -/

/-- Damped semi-implicit velocity update:
`v = (v + a * dt) * damping`, `damping = 0.985`. -/
noncomputable def dampedVel (vx vy ax ay dt : ℝ) : ℝ × ℝ :=
  ((vx + ax * dt) * 0.985, (vy + ay * dt) * 0.985)

/-- Hard speed clamp: rescale to `maxSpeed = 140` when the magnitude
exceeds it. -/
noncomputable def clampVel (v : ℝ × ℝ) : ℝ × ℝ :=
  let vmag := hypot v.1 v.2
  if vmag > 140 then (v.1 * (140 / vmag), v.2 * (140 / vmag)) else v

/-- Minimum-drift injection: when the speed `vL` is below `minV = 20`, add
`flowDir(px*1.2, py*1.1, now*0.001)` scaled by `minV - vL`. -/
noncomputable def driftVel (v : ℝ × ℝ) (px py now : ℝ) : ℝ × ℝ :=
  let vL := vlength v.1 v.2
  if vL < 20 then
    let d := flowDir (px * 1.2) (py * 1.1) (now * 0.001)
    (v.1 + d.1 * (20 - vL), v.2 + d.2 * (20 - vL))
  else v

/-- Global wave drag (source lines 337-342): every particle's velocity is
scaled by `waveDrag = 0.9` whenever the wave list is nonempty. -/
noncomputable def waveDragVel (active : Bool) (v : ℝ × ℝ) : ℝ × ℝ :=
  if active then (v.1 * 0.9, v.2 * 0.9) else v

/-- The complete per-particle velocity pipeline of one physics step, for a
particle at `(px, py)` with accumulated acceleration `(ax, ay)`:
damping, speed clamp, minimum drift, optional wave drag. -/
noncomputable def integrateVel (vx vy ax ay px py now dt : ℝ)
    (wavesActive : Bool) : ℝ × ℝ :=
  waveDragVel wavesActive
    (driftVel (clampVel (dampedVel vx vy ax ay dt)) px py now)

/-! ## Renderer: bounded nearest-neighbor buffer (source lines 354-373) -/

/-- Comparison used by the renderer's `nearest.sort((u, v) => u.d2 - v.d2)`:
ascending squared distance.  Entries are `(index, d2)` pairs. -/
def leD2 (u v : ℕ × ℚ) : Prop := u.2 ≤ v.2

instance : DecidableRel leD2 := fun u v =>
  inferInstanceAs (Decidable (u.2 ≤ v.2))

instance : IsTotal (ℕ × ℚ) leD2 := ⟨fun u v => le_total u.2 v.2⟩

instance : IsTrans (ℕ × ℚ) leD2 := ⟨fun _ _ _ h1 h2 => le_trans h1 h2⟩

/-- `Array.prototype.sort` with the ascending-`d2` comparator: a stable
comparison sort, modelled as stable insertion sort. -/
def sortByD2 (l : List (ℕ × ℚ)) : List (ℕ × ℚ) := l.insertionSort leD2

/-- One iteration of the renderer's buffer maintenance for an in-range
candidate `e`: push while fewer than `maxNeighbors = 5` entries (sorting upon
reaching 5), else replace the current worst (last) entry when `e` is strictly
closer and re-sort. -/
def pushNear (buf : List (ℕ × ℚ)) (e : ℕ × ℚ) : List (ℕ × ℚ) :=
  if buf.length < 5 then
    let b := buf ++ [e]
    if b.length = 5 then sortByD2 b else b
  else if e.2 < (buf.getLastD e).2 then sortByD2 (buf.dropLast ++ [e])
  else buf

/-- The renderer's selection over the whole candidate stream. -/
def selectNearest (es : List (ℕ × ℚ)) : List (ℕ × ℚ) :=
  es.foldl pushNear []

/-- The in-range candidate stream for particle `i` (source lines 358-364):
grid candidates `cs` with the particle itself skipped and squared distances
above `maxLinkDist² = 140*140` skipped.  `pos` gives each particle's current
position. -/
def gatherInRange (pos : ℕ → ℚ × ℚ) (i : ℕ) (cs : List ℕ) : List (ℕ × ℚ) :=
  cs.filterMap fun j =>
    if j = i then none
    else
      let dx := (pos j).1 - (pos i).1
      let dy := (pos j).2 - (pos i).2
      let d2 := dx * dx + dy * dy
      if d2 > 140 * 140 then none else some (j, d2)

/-- Modelled from the spec's words, for the refinement claim: the naive
definition "sort all in-range candidates by squared distance and take the
first 5". -/
def specNearestNaive (es : List (ℕ × ℚ)) : List (ℕ × ℚ) :=
  (sortByD2 es).take 5

/-! ## Mount / teardown control flow (source lines 116-118, 204-212,
413-425)

`canvas.getContext("2d")!` performs no null check; the first dereference of
the context happens inside `resize()` (`ctx.setTransform`, line 155), which
is invoked once at mount (line 212) after the six event listeners are
registered (lines 204-209), and again on every later window `resize` event.
`requestAnimationFrame` (line 414) and the cleanup closure (line 417) are
reached only if that initial `resize()` returns.  The DOM semantics modelled:
`getContext` may yield `null` (`ctxOk = false`), and a member call on `null`
throws. -/

inductive MountError where
  | nullCtx
deriving DecidableEq

/-- One invocation of the `resize` handler, reduced to its only fallible
step: the `ctx.setTransform` call, which throws iff the context is null. -/
def runResize (ctxOk : Bool) : Except MountError Unit :=
  if ctxOk then Except.ok () else Except.error MountError.nullCtx

structure MountResult where
  listeners : ℕ
  rafScheduled : Bool
  cleanupRegistered : Bool
deriving DecidableEq

/-- The mount effect: registers the six listeners, runs the initial
`resize()`; on success schedules the frame loop and returns the cleanup
closure, on a throw aborts with the partial effects (listeners registered,
no frame request, no cleanup). -/
def mount (ctxOk : Bool) : MountResult × Option MountError :=
  match runResize ctxOk with
  | Except.error e => (⟨6, false, false⟩, some e)
  | Except.ok _ => (⟨6, true, true⟩, none)

/-! # Theorems -/

/-! ## Vector-length toolbox for the `ℝ`-level claims -/

theorem hypot_eq_complexAbs (x y : ℝ) : hypot x y = Complex.abs ⟨x, y⟩ := by
  rw [hypot, Complex.abs_apply, Complex.normSq_mk]
  ring_nf

theorem hypot_nonneg (x y : ℝ) : 0 ≤ hypot x y := Real.sqrt_nonneg _

theorem hypot_zero : hypot 0 0 = 0 := by simp [hypot]

theorem hypot_mul (x y c : ℝ) : hypot (x * c) (y * c) = hypot x y * |c| := by
  rw [hypot, hypot]
  have h1 : (x * c) ^ 2 + (y * c) ^ 2 = (x ^ 2 + y ^ 2) * c ^ 2 := by ring
  rw [h1, Real.sqrt_mul (by positivity), Real.sqrt_sq_eq_abs]

theorem hypot_neg (x y : ℝ) : hypot (-x) (-y) = hypot x y := by
  rw [hypot, hypot, neg_pow, neg_pow]
  norm_num

theorem hypot_add_le (x1 y1 x2 y2 : ℝ) :
    hypot (x1 + x2) (y1 + y2) ≤ hypot x1 y1 + hypot x2 y2 := by
  rw [hypot_eq_complexAbs, hypot_eq_complexAbs, hypot_eq_complexAbs]
  have h : (⟨x1 + x2, y1 + y2⟩ : ℂ) = ⟨x1, y1⟩ + ⟨x2, y2⟩ := by
    apply Complex.ext <;> simp
  rw [h]
  exact Complex.abs.add_le _ _

theorem hypot_cos_sin (a k : ℝ) :
    hypot (Real.cos a * k) (Real.sin a * k) = |k| := by
  rw [hypot_mul, hypot]
  rw [show Real.cos a ^ 2 + Real.sin a ^ 2 = 1 from by
    rw [add_comm]; exact Real.sin_sq_add_cos_sq a]
  rw [Real.sqrt_one, one_mul]

theorem hypot_flowDir_mul (x y t k : ℝ) :
    hypot ((flowDir x y t).1 * k) ((flowDir x y t).2 * k) = |k| := by
  simp only [flowDir]
  exact hypot_cos_sin _ k

theorem hypot_flowDir (x y t : ℝ) :
    hypot (flowDir x y t).1 (flowDir x y t).2 = 1 := by
  have h := hypot_flowDir_mul x y t 1
  rw [mul_one, mul_one] at h
  rw [h]
  norm_num

/-- The hard clamp caps the speed at `maxSpeed = 140` (an exact rescale to
140 when exceeded, identity otherwise). -/
theorem clampVel_le (v : ℝ × ℝ) :
    hypot (clampVel v).1 (clampVel v).2 ≤ 140 := by
  simp only [clampVel]
  split_ifs with h
  · have hpos : (0 : ℝ) < hypot v.1 v.2 := lt_trans (by norm_num) h
    rw [hypot_mul, abs_of_pos (by positivity)]
    rw [div_eq_mul_inv, ← mul_assoc, mul_comm (hypot v.1 v.2) 140, mul_assoc,
      mul_inv_cancel₀ (ne_of_gt hpos), mul_one]
  · exact le_of_not_lt h

/-- The minimum-drift injection never raises the speed above 20, hence
never above the cap. -/
theorem driftVel_le (v : ℝ × ℝ) (px py now : ℝ)
    (h : hypot v.1 v.2 ≤ 140) :
    hypot (driftVel v px py now).1 (driftVel v px py now).2 ≤ 140 := by
  simp only [driftVel, vlength]
  split_ifs with hv
  · refine le_trans (hypot_add_le _ _ _ _) ?_
    rw [hypot_flowDir_mul]
    rw [abs_of_nonneg (by linarith : (0 : ℝ) ≤ 20 - hypot v.1 v.2)]
    linarith
  · exact h

/-- The global wave drag only shrinks speeds. -/
theorem waveDragVel_le (active : Bool) (v : ℝ × ℝ)
    (h : hypot v.1 v.2 ≤ 140) :
    hypot (waveDragVel active v).1 (waveDragVel active v).2 ≤ 140 := by
  simp only [waveDragVel]
  split_ifs
  · rw [hypot_mul]
    have h0 := hypot_nonneg v.1 v.2
    rw [abs_of_pos (by norm_num : (0 : ℝ) < 0.9)]
    nlinarith
  · exact h

/-- C2: at the end of every physics step — after damping, the speed clamp,
the minimum-drift injection and the optional wave drag — every particle's
speed is at most `maxSpeed = 140`, for every velocity, accumulated
acceleration, position, time and time step. -/
theorem speed_le_maxSpeed (vx vy ax ay px py now dt : ℝ) (active : Bool) :
    hypot (integrateVel vx vy ax ay px py now dt active).1
      (integrateVel vx vy ax ay px py now dt active).2 ≤ 140 := by
  unfold integrateVel
  exact waveDragVel_le _ _ (driftVel_le _ _ _ _ (clampVel_le _))

/-- Auxiliary reverse triangle inequality for `hypot`. -/
theorem hypot_add_ge (x1 y1 x2 y2 : ℝ) :
    hypot x2 y2 - hypot x1 y1 ≤ hypot (x1 + x2) (y1 + y2) := by
  have h := hypot_add_le (x1 + x2) (y1 + y2) (-x1) (-y1)
  rw [hypot_neg] at h
  have h2 : x1 + x2 + -x1 = x2 := by ring
  have h3 : y1 + y2 + -y1 = y2 := by ring
  rw [h2, h3] at h
  linarith

/-- C4 amended: whenever the post-clamp speed `vL` is below `minV = 20`, the
integration adds exactly `(minV - vL)` times the unit flow direction sampled
at the distorted position `(px*1.2, py*1.1)`; the resulting speed lies
between `minV - 2*vL` and `minV` — it equals `minV` for a fully stalled
particle (`v = 0`), but it is not in general at least `minV`, because the
injected direction can oppose the current velocity. -/
theorem driftVel_injection (v : ℝ × ℝ) (px py now : ℝ)
    (h : hypot v.1 v.2 < 20) :
    driftVel v px py now =
      (v.1 + (flowDir (px * 1.2) (py * 1.1) (now * 0.001)).1 *
        (20 - hypot v.1 v.2),
       v.2 + (flowDir (px * 1.2) (py * 1.1) (now * 0.001)).2 *
        (20 - hypot v.1 v.2)) ∧
    hypot (driftVel v px py now).1 (driftVel v px py now).2 ≤ 20 ∧
    20 - 2 * hypot v.1 v.2 ≤
      hypot (driftVel v px py now).1 (driftVel v px py now).2 ∧
    (v = (0, 0) →
      hypot (driftVel v px py now).1 (driftVel v px py now).2 = 20) := by
  have habs : |20 - hypot v.1 v.2| = 20 - hypot v.1 v.2 :=
    abs_of_nonneg (by linarith)
  have heq : driftVel v px py now =
      (v.1 + (flowDir (px * 1.2) (py * 1.1) (now * 0.001)).1 *
        (20 - hypot v.1 v.2),
       v.2 + (flowDir (px * 1.2) (py * 1.1) (now * 0.001)).2 *
        (20 - hypot v.1 v.2)) := by
    simp only [driftVel, vlength]
    rw [if_pos h]
  refine ⟨heq, ?_, ?_, ?_⟩
  · rw [heq]
    refine le_trans (hypot_add_le _ _ _ _) ?_
    rw [hypot_flowDir_mul, habs]
    linarith
  · rw [heq]
    have hge := hypot_add_ge v.1 v.2
      ((flowDir (px * 1.2) (py * 1.1) (now * 0.001)).1 *
        (20 - hypot v.1 v.2))
      ((flowDir (px * 1.2) (py * 1.1) (now * 0.001)).2 *
        (20 - hypot v.1 v.2))
    rw [hypot_flowDir_mul, habs] at hge
    linarith
  · intro hv
    rw [heq, hv]
    have h0 : hypot ((0, 0) : ℝ × ℝ).1 ((0, 0) : ℝ × ℝ).2 = 0 := hypot_zero
    rw [h0]
    have : ∀ z : ℝ, (0 : ℝ) + z = z := fun z => by ring
    rw [this, this, hypot_flowDir_mul]
    norm_num

/-- Witness for C4's amended theorem: a fully stalled particle receives an
injection that brings its speed to exactly the minimum. -/
theorem driftVel_injection_witness :
    hypot ((0, 0) : ℝ × ℝ).1 ((0, 0) : ℝ × ℝ).2 < 20 ∧
    (driftVel ((0, 0) : ℝ × ℝ) 0 0 0 =
      (((0, 0) : ℝ × ℝ).1 + (flowDir (0 * 1.2) (0 * 1.1) (0 * 0.001)).1 *
        (20 - hypot ((0, 0) : ℝ × ℝ).1 ((0, 0) : ℝ × ℝ).2),
       ((0, 0) : ℝ × ℝ).2 + (flowDir (0 * 1.2) (0 * 1.1) (0 * 0.001)).2 *
        (20 - hypot ((0, 0) : ℝ × ℝ).1 ((0, 0) : ℝ × ℝ).2)) ∧
    hypot (driftVel ((0, 0) : ℝ × ℝ) 0 0 0).1
      (driftVel ((0, 0) : ℝ × ℝ) 0 0 0).2 ≤ 20 ∧
    20 - 2 * hypot ((0, 0) : ℝ × ℝ).1 ((0, 0) : ℝ × ℝ).2 ≤
      hypot (driftVel ((0, 0) : ℝ × ℝ) 0 0 0).1
        (driftVel ((0, 0) : ℝ × ℝ) 0 0 0).2 ∧
    (((0, 0) : ℝ × ℝ) = (0, 0) →
      hypot (driftVel ((0, 0) : ℝ × ℝ) 0 0 0).1
        (driftVel ((0, 0) : ℝ × ℝ) 0 0 0).2 = 20)) :=
  have h : hypot ((0, 0) : ℝ × ℝ).1 ((0, 0) : ℝ × ℝ).2 < 20 := by
    rw [hypot_zero]; norm_num
  ⟨h, driftVel_injection ((0, 0) : ℝ × ℝ) 0 0 0 h⟩

/-- C4 counterexample: a particle moving against the local flow direction at
speed 19.7 (below `minV = 20`, so the injection fires) ends the injection at
speed 19.4, still below the minimum — the claim's "resulting speed is at
least the minimum drift threshold" is false as stated. -/
theorem driftVel_below_min_counterexample :
    hypot (clampVel (dampedVel (Real.cos 0.4 * -20) (Real.sin 0.4 * -20)
        0 0 0)).1
      (clampVel (dampedVel (Real.cos 0.4 * -20) (Real.sin 0.4 * -20)
        0 0 0)).2 < 20 ∧
    hypot (driftVel (clampVel (dampedVel (Real.cos 0.4 * -20)
        (Real.sin 0.4 * -20) 0 0 0)) 0 0 0).1
      (driftVel (clampVel (dampedVel (Real.cos 0.4 * -20)
        (Real.sin 0.4 * -20) 0 0 0)) 0 0 0).2 < 20 := by
  have hd : dampedVel (Real.cos 0.4 * -20) (Real.sin 0.4 * -20) 0 0 0 =
      (Real.cos 0.4 * -19.7, Real.sin 0.4 * -19.7) := by
    simp only [dampedVel, Prod.mk.injEq]
    exact ⟨by ring, by ring⟩
  have hmag : hypot (Real.cos 0.4 * -19.7) (Real.sin 0.4 * -19.7) = 19.7 := by
    rw [hypot_cos_sin]
    rw [abs_of_neg (by norm_num : (-19.7 : ℝ) < 0)]
    norm_num
  have hc : clampVel (Real.cos 0.4 * -19.7, Real.sin 0.4 * -19.7) =
      (Real.cos 0.4 * -19.7, Real.sin 0.4 * -19.7) := by
    simp only [clampVel]
    rw [if_neg]
    rw [hmag]
    norm_num
  have hflow : flowDir ((0 : ℝ) * 1.2) ((0 : ℝ) * 1.1) ((0 : ℝ) * 0.001) =
      (Real.cos 0.4, Real.sin 0.4) := by
    simp only [flowDir, Prod.mk.injEq]
    norm_num
  have hdr : driftVel (Real.cos 0.4 * -19.7, Real.sin 0.4 * -19.7) 0 0 0 =
      (Real.cos 0.4 * -19.4, Real.sin 0.4 * -19.4) := by
    simp only [driftVel, vlength]
    rw [hmag, if_pos (by norm_num : (19.7 : ℝ) < 20), hflow]
    simp only [Prod.mk.injEq]
    exact ⟨by ring, by ring⟩
  rw [hd, hc, hdr]
  rw [hmag, hypot_cos_sin]
  rw [abs_of_neg (by norm_num : (-19.4 : ℝ) < 0)]
  norm_num

/-- C6: `normalize` substitutes the zero vector whenever the input length is
at most the `1e-6` epsilon floor, so a particle exactly at the pointer
position (with the pointer inside) and a particle exactly at a wave origin
receive zero-vector pointer-avoidance and wave-impulse contributions — no
division by a near-zero magnitude is propagated. -/
theorem degenerate_forces_zero (x y mx my ox oy now t0 : ℝ)
    (h : hypot x y ≤ 1e-6) :
    normalize x y = (0, 0) ∧
    mouseAccel true mx my mx my = (0, 0) ∧
    waveAccel ox oy ox oy now t0 = (0, 0) := by
  have hnorm : ∀ a b : ℝ, hypot a b ≤ 1e-6 → normalize a b = (0, 0) := by
    intro a b hab
    simp only [normalize]
    rw [if_neg (not_lt.mpr hab)]
  have hzero : hypot (0 : ℝ) 0 ≤ 1e-6 := by rw [hypot_zero]; norm_num
  refine ⟨hnorm x y h, ?_, ?_⟩
  · simp only [mouseAccel, if_true, sub_self, hypot_zero]
    rw [if_pos (by norm_num : (0 : ℝ) < 110), hnorm 0 0 hzero]
    simp
  · simp only [waveAccel, sub_self, hypot_zero]
    rw [hnorm 0 0 hzero]
    split_ifs <;> simp

/-- Witness for C6 at the zero vector and concrete pointer/wave/time data. -/
theorem degenerate_forces_zero_witness :
    hypot (0 : ℝ) 0 ≤ 1e-6 ∧
    (normalize (0 : ℝ) 0 = (0, 0) ∧
      mouseAccel true 3 4 3 4 = (0, 0) ∧
      waveAccel 5 6 5 6 7 2 = (0, 0)) :=
  have h : hypot (0 : ℝ) 0 ≤ 1e-6 := by rw [hypot_zero]; norm_num
  ⟨h, degenerate_forces_zero 0 0 3 4 5 6 7 2 h⟩

/-! ## Bounded nearest-neighbor buffer refines the naive selection (C7) -/

theorem sortByD2_perm (l : List (ℕ × ℚ)) : List.Perm (sortByD2 l) l :=
  List.perm_insertionSort leD2 l

theorem sortByD2_sorted (l : List (ℕ × ℚ)) : (sortByD2 l).Sorted leD2 :=
  List.sorted_insertionSort leD2 l

theorem sortByD2_length (l : List (ℕ × ℚ)) :
    (sortByD2 l).length = l.length :=
  (sortByD2_perm l).length_eq

theorem sortByD2_coe (l : List (ℕ × ℚ)) :
    (↑(sortByD2 l) : Multiset (ℕ × ℚ)) = ↑l :=
  Multiset.coe_eq_coe.mpr (sortByD2_perm l)

/-- Loop invariant of the renderer's buffer: while fewer than 5 candidates
have been seen the buffer is literally the processed list; from 5 onwards it
is a sorted 5-element selection whose complement (`rest`) consists of
entries no closer than anything retained. -/
def SelInv (es buf : List (ℕ × ℚ)) : Prop :=
  (es.length < 5 → buf = es) ∧
  (5 ≤ es.length → buf.Sorted leD2 ∧ buf.length = 5 ∧
    ∃ rest : Multiset (ℕ × ℚ), (↑es : Multiset (ℕ × ℚ)) = ↑buf + rest ∧
      ∀ a ∈ buf, ∀ b ∈ rest, a.2 ≤ b.2)

theorem selInv_nil : SelInv [] [] :=
  ⟨fun _ => rfl, fun h => absurd h (by norm_num)⟩

theorem selInv_step (es buf : List (ℕ × ℚ)) (e : ℕ × ℚ)
    (h : SelInv es buf) : SelInv (es ++ [e]) (pushNear buf e) := by
  obtain ⟨hlt, hge⟩ := h
  by_cases h5 : es.length < 5
  · have hbuf : buf = es := hlt h5
    subst hbuf
    rw [pushNear, if_pos h5]
    by_cases h45 : (buf ++ [e]).length = 5
    · rw [if_pos h45]
      have hlen5 : (buf ++ [e]).length = buf.length + 1 := by
        rw [List.length_append, List.length_singleton]
      refine ⟨fun hcon => ?_, fun _ => ?_⟩
      · rw [List.length_append, List.length_singleton] at hcon
        omega
      · refine ⟨sortByD2_sorted _, by rw [sortByD2_length, h45], 0, ?_, ?_⟩
        · rw [add_zero, sortByD2_coe]
        · intro a _ b hb
          exact absurd hb (Multiset.not_mem_zero b)
    · rw [if_neg h45]
      refine ⟨fun _ => rfl, fun hcon => ?_⟩
      rw [List.length_append, List.length_singleton] at hcon h45
      omega
  · push_neg at h5
    obtain ⟨hsort, hlen, rest, hdecomp, hmin⟩ := hge h5
    rw [pushNear, if_neg (by omega)]
    obtain ⟨l2, w, rfl⟩ : ∃ l2 w, buf = l2 ++ [w] := by
      rcases List.eq_nil_or_concat buf with h0 | ⟨l2, w, hw⟩
      · rw [h0] at hlen
        simp at hlen
      · exact ⟨l2, w, by rw [hw, List.concat_eq_append]⟩
    have hlast : (l2 ++ [w]).getLastD e = w := by
      rw [List.getLastD_eq_getLast?, List.getLast?_concat]
      rfl
    have hdrop : (l2 ++ [w]).dropLast = l2 := List.dropLast_concat
    have hl2len : l2.length = 4 := by
      rw [List.length_append, List.length_singleton] at hlen
      omega
    have hl2w : ∀ a ∈ l2, a.2 ≤ w.2 := by
      intro a ha
      have := (List.pairwise_append.mp hsort).2.2 a ha w
        (List.mem_singleton.mpr rfl)
      exact this
    have hwmem : w ∈ l2 ++ [w] :=
      List.mem_append_right _ (List.mem_singleton.mpr rfl)
    have hcoe : (↑(l2 ++ [w]) : Multiset (ℕ × ℚ)) = ↑l2 + {w} := by
      rw [← Multiset.coe_singleton, ← Multiset.coe_add]
    rw [hlast, hdrop]
    by_cases hew : e.2 < w.2
    · rw [if_pos hew]
      refine ⟨fun hcon => ?_, fun _ => ?_⟩
      · rw [List.length_append, List.length_singleton] at hcon
        omega
      · refine ⟨sortByD2_sorted _, ?_, rest + {w}, ?_, ?_⟩
        · rw [sortByD2_length, List.length_append, List.length_singleton]
          omega
        · rw [sortByD2_coe]
          have h1 : (↑(es ++ [e]) : Multiset (ℕ × ℚ)) = ↑es + {e} := by
            rw [← Multiset.coe_singleton, ← Multiset.coe_add]
          have h2 : (↑(l2 ++ [e]) : Multiset (ℕ × ℚ)) = ↑l2 + {e} := by
            rw [← Multiset.coe_singleton, ← Multiset.coe_add]
          rw [h1, h2, hdecomp, hcoe]
          abel
        · intro a ha b hb
          have ha2 : a ∈ l2 ++ [e] := (sortByD2_perm _).subset ha
          rcases Multiset.mem_add.mp hb with hbr | hbw
          · rcases List.mem_append.mp ha2 with hal | hae
            · exact hmin a (List.mem_append_left _ hal) b hbr
            · rw [List.mem_singleton.mp hae]
              exact le_trans (le_of_lt hew) (hmin w hwmem b hbr)
          · rw [Multiset.mem_singleton.mp hbw]
            rcases List.mem_append.mp ha2 with hal | hae
            · exact hl2w a hal
            · rw [List.mem_singleton.mp hae]
              exact le_of_lt hew
    · rw [if_neg hew]
      push_neg at hew
      refine ⟨fun hcon => ?_, fun _ => ?_⟩
      · rw [List.length_append, List.length_singleton] at hcon
        omega
      · refine ⟨hsort, hlen, rest + {e}, ?_, ?_⟩
        · have h1 : (↑(es ++ [e]) : Multiset (ℕ × ℚ)) = ↑es + {e} := by
            rw [← Multiset.coe_singleton, ← Multiset.coe_add]
          rw [h1, hdecomp]
          abel
        · intro a ha b hb
          rcases Multiset.mem_add.mp hb with hbr | hbe
          · exact hmin a ha b hbr
          · rw [Multiset.mem_singleton.mp hbe]
            rcases List.mem_append.mp ha with hal | haw
            · exact le_trans (hl2w a hal) hew
            · rw [List.mem_singleton.mp haw]
              exact hew

theorem selInv_selectNearest (es : List (ℕ × ℚ)) :
    SelInv es (selectNearest es) := by
  induction es using List.reverseRecOn with
  | nil => exact selInv_nil
  | append_singleton es e ih =>
    have hsel : selectNearest (es ++ [e]) =
        pushNear (selectNearest es) e := by
      rw [selectNearest, selectNearest, List.foldl_append, List.foldl_cons,
        List.foldl_nil]
    rw [hsel]
    exact selInv_step es _ e ih

/-- Two equally long sorted selections that are both minimal within the same
multiset coincide: the "k smallest values" list is unique. -/
theorem sorted_min_prefix_unique :
    ∀ (xs ys : List ℚ) (rs ss : Multiset ℚ), xs.Sorted (· ≤ ·) →
      ys.Sorted (· ≤ ·) → xs.length = ys.length →
      (↑xs + rs : Multiset ℚ) = ↑ys + ss →
      (∀ a ∈ xs, ∀ b ∈ rs, a ≤ b) → (∀ a ∈ ys, ∀ b ∈ ss, a ≤ b) →
      xs = ys := by
  intro xs
  induction xs with
  | nil =>
    intro ys rs ss _ _ hlen _ _ _
    exact (List.length_eq_zero.mp hlen.symm).symm
  | cons x xs ih =>
    intro ys rs ss hxs hys hlen heq hminx hminy
    cases ys with
    | nil => simp at hlen
    | cons y ys2 =>
      have hxmem : x ∈ (↑(y :: ys2) + ss : Multiset ℚ) := by
        rw [← heq]
        exact Multiset.mem_add.mpr (Or.inl (Multiset.mem_coe.mpr
          (List.mem_cons_self x xs)))
      have hymem : y ∈ (↑(x :: xs) + rs : Multiset ℚ) := by
        rw [heq]
        exact Multiset.mem_add.mpr (Or.inl (Multiset.mem_coe.mpr
          (List.mem_cons_self y ys2)))
      have hyx : y ≤ x := by
        rcases Multiset.mem_add.mp hxmem with h1 | h2
        · rcases List.mem_cons.mp (Multiset.mem_coe.mp h1) with h3 | h4
          · exact le_of_eq h3.symm
          · exact (List.sorted_cons.mp hys).1 x h4
        · exact hminy y (List.mem_cons_self y ys2) x h2
      have hxy : x ≤ y := by
        rcases Multiset.mem_add.mp hymem with h1 | h2
        · rcases List.mem_cons.mp (Multiset.mem_coe.mp h1) with h3 | h4
          · exact le_of_eq h3.symm
          · exact (List.sorted_cons.mp hxs).1 y h4
        · exact hminx x (List.mem_cons_self x xs) y h2
      have hxyeq : x = y := le_antisymm hxy hyx
      subst hxyeq
      have heq2 : (↑xs + rs : Multiset ℚ) = ↑ys2 + ss := by
        have hc : (x ::ₘ (↑xs + rs) : Multiset ℚ) = x ::ₘ (↑ys2 + ss) := by
          rw [← Multiset.cons_add, ← Multiset.cons_add, Multiset.cons_coe,
            Multiset.cons_coe]
          exact heq
        exact (Multiset.cons_inj_right x).mp hc
      have htail : xs = ys2 :=
        ih ys2 rs ss (List.sorted_cons.mp hxs).2 (List.sorted_cons.mp hys).2
          (by simpa using hlen) heq2
          (fun a ha b hb => hminx a (List.mem_cons_of_mem x ha) b hb)
          (fun a ha b hb => hminy a (List.mem_cons_of_mem x ha) b hb)
      rw [htail]

/-- Sortedness by squared distance transfers to the projected distance
list. -/
theorem sorted_map_snd (l : List (ℕ × ℚ)) (h : l.Sorted leD2) :
    (l.map Prod.snd).Sorted (· ≤ ·) :=
  List.Pairwise.map Prod.snd (fun _ _ hab => hab) h

/-- The renderer's incremental bounded buffer is equivalent to the naive
"sort all in-range candidates and take the first 5" selection: it draws its
entries from the candidate list, keeps `min(length, 5)` of them, and keeps
exactly the 5 smallest squared distances (as a multiset — tie-breaking
among equidistant candidates may differ). -/
theorem selectNearest_eq_naive (es : List (ℕ × ℚ)) :
    (↑(selectNearest es) : Multiset (ℕ × ℚ)) ≤ ↑es ∧
    (selectNearest es).length = min es.length 5 ∧
    (↑((selectNearest es).map Prod.snd) : Multiset ℚ) =
      ↑((specNearestNaive es).map Prod.snd) := by
  obtain ⟨hlt, hge⟩ := selInv_selectNearest es
  by_cases h5 : es.length < 5
  · have hb := hlt h5
    rw [hb]
    refine ⟨le_refl _, (min_eq_left (by omega)).symm, ?_⟩
    have hnv : specNearestNaive es = sortByD2 es := by
      rw [specNearestNaive]
      exact List.take_of_length_le (by rw [sortByD2_length]; omega)
    rw [hnv]
    exact Multiset.coe_eq_coe.mpr ((sortByD2_perm es).map Prod.snd).symm
  · push_neg at h5
    obtain ⟨hsort, hlen, rest, hdecomp, hmin⟩ := hge h5
    have hnsorted : (specNearestNaive es).Sorted leD2 :=
      List.Pairwise.sublist (List.take_sublist 5 (sortByD2 es))
        (sortByD2_sorted es)
    have hnlen : (specNearestNaive es).length = 5 := by
      rw [specNearestNaive, List.length_take, sortByD2_length]
      omega
    have hsplit : (↑es : Multiset (ℕ × ℚ)) =
        ↑(specNearestNaive es) +
          (↑((sortByD2 es).drop 5) : Multiset (ℕ × ℚ)) := by
      rw [specNearestNaive, Multiset.coe_add, List.take_append_drop,
        sortByD2_coe]
    have hmin2 : ∀ a ∈ specNearestNaive es,
        ∀ b ∈ (↑((sortByD2 es).drop 5) : Multiset (ℕ × ℚ)), a.2 ≤ b.2 := by
      intro a ha b hb
      have hperm := sortByD2_sorted es
      rw [show sortByD2 es = (sortByD2 es).take 5 ++ (sortByD2 es).drop 5
        from (List.take_append_drop 5 (sortByD2 es)).symm] at hperm
      exact (List.pairwise_append.mp hperm).2.2 a ha b (Multiset.mem_coe.mp hb)
    refine ⟨?_, ?_, ?_⟩
    · rw [hdecomp]
      exact Multiset.le_add_right _ _
    · rw [hlen]
      exact (min_eq_right h5).symm
    · have hmapeq : (↑((selectNearest es).map Prod.snd) : Multiset ℚ) +
          Multiset.map Prod.snd rest =
          (↑((specNearestNaive es).map Prod.snd) : Multiset ℚ) +
            Multiset.map Prod.snd
              (↑((sortByD2 es).drop 5) : Multiset (ℕ × ℚ)) := by
        have h1 := congrArg (Multiset.map Prod.snd) hdecomp
        have h2 := congrArg (Multiset.map Prod.snd) hsplit
        rw [Multiset.map_add, Multiset.map_coe, Multiset.map_coe] at h1 h2
        rw [← h1, ← h2]
      refine congrArg _ (sorted_min_prefix_unique
        ((selectNearest es).map Prod.snd)
        ((specNearestNaive es).map Prod.snd)
        (Multiset.map Prod.snd rest)
        (Multiset.map Prod.snd
          (↑((sortByD2 es).drop 5) : Multiset (ℕ × ℚ)))
        (sorted_map_snd _ hsort) (sorted_map_snd _ hnsorted)
        (by rw [List.length_map, List.length_map, hlen, hnlen]) hmapeq
        ?_ ?_)
      · intro a ha b hb
        obtain ⟨a0, ha0, rfl⟩ := List.mem_map.mp ha
        obtain ⟨b0, hb0, rfl⟩ := Multiset.mem_map.mp hb
        exact hmin a0 ha0 b0 hb0
      · intro a ha b hb
        obtain ⟨a0, ha0, rfl⟩ := List.mem_map.mp ha
        obtain ⟨b0, hb0, rfl⟩ := Multiset.mem_map.mp hb
        exact hmin2 a0 ha0 b0 hb0

/-- C7: for each particle, the renderer's capacity-5 insertion-sorted buffer
over the grid candidates within the cutoff (self excluded) selects exactly
the up-to-5 candidates with the smallest squared distances: it is equivalent
to the spec's naive "sort all in-range candidates by squared distance and
take the first 5" definition, up to tie-breaking among equidistant
candidates (the multisets of selected squared distances agree, the selected
entries are drawn from the candidate list, and the selection sizes agree). -/
theorem renderNearest_refines_naive (pos : ℕ → ℚ × ℚ) (i : ℕ)
    (cs : List ℕ) :
    (↑(selectNearest (gatherInRange pos i cs)) : Multiset (ℕ × ℚ)) ≤
      ↑(gatherInRange pos i cs) ∧
    (selectNearest (gatherInRange pos i cs)).length =
      min (gatherInRange pos i cs).length 5 ∧
    (↑((selectNearest (gatherInRange pos i cs)).map Prod.snd) :
        Multiset ℚ) =
      ↑((specNearestNaive (gatherInRange pos i cs)).map Prod.snd) :=
  selectNearest_eq_naive (gatherInRange pos i cs)

/-! ## Spatial-grid completeness (C1) -/

theorem insertAll_cols (ps : List (ℕ × ℚ × ℚ)) :
    ∀ g : SpatialGrid, (insertAll g ps).cols = g.cols := by
  induction ps with
  | nil => intro g; rfl
  | cons t ps ih =>
    intro g
    rw [insertAll, List.foldl_cons]
    exact ih (g.insert t.1 t.2.1 t.2.2)

theorem insertAll_rows (ps : List (ℕ × ℚ × ℚ)) :
    ∀ g : SpatialGrid, (insertAll g ps).rows = g.rows := by
  induction ps with
  | nil => intro g; rfl
  | cons t ps ih =>
    intro g
    rw [insertAll, List.foldl_cons]
    exact ih (g.insert t.1 t.2.1 t.2.2)

theorem insertAll_cellSize (ps : List (ℕ × ℚ × ℚ)) :
    ∀ g : SpatialGrid, (insertAll g ps).cellSize = g.cellSize := by
  induction ps with
  | nil => intro g; rfl
  | cons t ps ih =>
    intro g
    rw [insertAll, List.foldl_cons]
    exact ih (g.insert t.1 t.2.1 t.2.2)

theorem insertAll_cellX (ps : List (ℕ × ℚ × ℚ)) (g : SpatialGrid) (x : ℚ) :
    (insertAll g ps).cellX x = g.cellX x := by
  rw [SpatialGrid.cellX, SpatialGrid.cellX, insertAll_cols, insertAll_cellSize]

theorem insertAll_cellY (ps : List (ℕ × ℚ × ℚ)) (g : SpatialGrid) (y : ℚ) :
    (insertAll g ps).cellY y = g.cellY y := by
  rw [SpatialGrid.cellY, SpatialGrid.cellY, insertAll_rows, insertAll_cellSize]

theorem insertAll_indexFor (ps : List (ℕ × ℚ × ℚ)) (g : SpatialGrid)
    (x y : ℚ) : (insertAll g ps).indexFor x y = g.indexFor x y := by
  rw [SpatialGrid.indexFor, SpatialGrid.indexFor, insertAll_cellX,
    insertAll_cellY, insertAll_cols]

/-- Inserting another particle never removes an index from a bucket. -/
theorem mem_cells_insert (g : SpatialGrid) (j : ℕ) (x y : ℚ) (i idx : ℕ)
    (h : i ∈ g.cells idx) : i ∈ (g.insert j x y).cells idx := by
  simp only [SpatialGrid.insert, Function.update_apply]
  split_ifs with he
  · exact List.mem_append_left _ (by rw [← he]; exact h)
  · exact h

theorem mem_cells_insertAll_of_mem (ps : List (ℕ × ℚ × ℚ)) :
    ∀ (g : SpatialGrid) (i idx : ℕ), i ∈ g.cells idx →
      i ∈ (insertAll g ps).cells idx := by
  induction ps with
  | nil => intro g i idx h; exact h
  | cons t ps ih =>
    intro g i idx h
    rw [insertAll, List.foldl_cons]
    exact ih _ i idx (mem_cells_insert g t.1 t.2.1 t.2.2 i idx h)

/-- `insert(i, x, y)` puts `i` into the bucket `indexFor(x, y)`. -/
theorem mem_cells_insert_self (g : SpatialGrid) (i : ℕ) (x y : ℚ) :
    i ∈ (g.insert i x y).cells (g.indexFor x y) := by
  simp only [SpatialGrid.insert, Function.update_apply]
  rw [if_true]
  exact List.mem_append_right _ (List.mem_singleton.mpr rfl)

/-- After the reinsertion loop, every listed particle is in the bucket of
its own position. -/
theorem mem_cells_insertAll (ps : List (ℕ × ℚ × ℚ)) :
    ∀ (g : SpatialGrid) (i : ℕ) (x y : ℚ), (i, x, y) ∈ ps →
      i ∈ (insertAll g ps).cells (g.indexFor x y) := by
  induction ps with
  | nil => intro g i x y h; exact absurd h (List.not_mem_nil _)
  | cons t ps ih =>
    intro g i x y h
    rw [insertAll, List.foldl_cons]
    rcases List.mem_cons.mp h with he | hm
    · have h1 : i ∈ (g.insert t.1 t.2.1 t.2.2).cells (g.indexFor x y) := by
        subst he
        exact mem_cells_insert_self g i x y
      exact mem_cells_insertAll_of_mem ps _ i _ h1
    · have h2 := ih (g.insert t.1 t.2.1 t.2.2) i x y hm
      rw [show (g.insert t.1 t.2.1 t.2.2).indexFor x y = g.indexFor x y
        from rfl] at h2
      exact h2

/-- Floors of points at distance at most 1 differ by at most 1. -/
theorem abs_floor_sub_le (a b : ℚ) (h : |a - b| ≤ 1) :
    |⌊a⌋ - ⌊b⌋| ≤ 1 := by
  rw [abs_le] at h
  have h1 : ⌊a⌋ ≤ ⌊b⌋ + 1 := by
    have := Int.floor_le_floor (show a ≤ b + 1 by linarith)
    rwa [Int.floor_add_one] at this
  have h2 : ⌊b⌋ ≤ ⌊a⌋ + 1 := by
    have := Int.floor_le_floor (show b ≤ a + 1 by linarith)
    rwa [Int.floor_add_one] at this
  rw [abs_le]
  omega

/-- The integer clamp is 1-Lipschitz. -/
theorem clampI_dist_le (u v m : ℤ) (h : |u - v| ≤ 1) :
    |clampI u 0 m - clampI v 0 m| ≤ 1 := by
  simp only [clampI]
  rw [abs_le] at h ⊢
  omega

theorem clampI_nonneg (v m : ℤ) : 0 ≤ clampI v 0 m := le_max_left _ _

theorem clampI_le (v m : ℤ) (hm : 0 ≤ m) : clampI v 0 m ≤ m :=
  max_le hm (min_le_left _ _)

/-- Coordinates at true distance at most one cell land in cell columns at
most one apart (clamping included). -/
theorem cellX_dist (g : SpatialGrid) (hcell : g.cellSize = 140) (px x : ℚ)
    (h : |px - x| ≤ 140) : |g.cellX px - g.cellX x| ≤ 1 := by
  rw [SpatialGrid.cellX, SpatialGrid.cellX, hcell]
  refine clampI_dist_le _ _ _ (abs_floor_sub_le _ _ ?_)
  rw [div_sub_div_same, abs_div]
  rw [show |(140 : ℚ)| = 140 from abs_of_pos (by norm_num)]
  rw [div_le_one (by norm_num)]
  exact h

theorem cellY_dist (g : SpatialGrid) (hcell : g.cellSize = 140) (py y : ℚ)
    (h : |py - y| ≤ 140) : |g.cellY py - g.cellY y| ≤ 1 := by
  rw [SpatialGrid.cellY, SpatialGrid.cellY, hcell]
  refine clampI_dist_le _ _ _ (abs_floor_sub_le _ _ ?_)
  rw [div_sub_div_same, abs_div]
  rw [show |(140 : ℚ)| = 140 from abs_of_pos (by norm_num)]
  rw [div_le_one (by norm_num)]
  exact h

/-- If `i` sits in the bucket of `(px, py)` and that bucket is within one
cell of `(x, y)`'s bucket in both axes, then `candidates(x, y)` yields
`i`. -/
theorem mem_candidates (g : SpatialGrid) (i : ℕ) (x y px py : ℚ)
    (hcols : 1 ≤ g.cols) (hrows : 1 ≤ g.rows)
    (hdx : |g.cellX px - g.cellX x| ≤ 1)
    (hdy : |g.cellY py - g.cellY y| ≤ 1)
    (hmem : i ∈ g.cells (g.indexFor px py)) :
    i ∈ g.candidates x y := by
  rw [abs_le] at hdx hdy
  simp only [SpatialGrid.candidates, List.mem_flatMap]
  refine ⟨(g.cellY py - g.cellY y + 1).toNat, List.mem_range.mpr ?_, ?_⟩
  · omega
  refine ⟨(g.cellX px - g.cellX x + 1).toNat, List.mem_range.mpr ?_, ?_⟩
  · omega
  have hox : ((g.cellX px - g.cellX x + 1).toNat : ℤ) =
      g.cellX px - g.cellX x + 1 := Int.toNat_of_nonneg (by omega)
  have hoy : ((g.cellY py - g.cellY y + 1).toNat : ℤ) =
      g.cellY py - g.cellY y + 1 := Int.toNat_of_nonneg (by omega)
  rw [hox, hoy]
  have hnx : g.cellX x + (g.cellX px - g.cellX x + 1) - 1 = g.cellX px := by
    ring
  have hny : g.cellY y + (g.cellY py - g.cellY y + 1) - 1 = g.cellY py := by
    ring
  rw [hnx, hny]
  have hxlo := clampI_nonneg ⌊px / g.cellSize⌋ ((g.cols : ℤ) - 1)
  have hxhi := clampI_le ⌊px / g.cellSize⌋ ((g.cols : ℤ) - 1)
    (by omega : (0 : ℤ) ≤ (g.cols : ℤ) - 1)
  have hylo := clampI_nonneg ⌊py / g.cellSize⌋ ((g.rows : ℤ) - 1)
  have hyhi := clampI_le ⌊py / g.cellSize⌋ ((g.rows : ℤ) - 1)
    (by omega : (0 : ℤ) ≤ (g.rows : ℤ) - 1)
  rw [if_pos]
  · exact hmem
  · refine ⟨?_, ?_, ?_, ?_⟩
    · exact hxlo
    · exact hylo
    · rw [SpatialGrid.cellX]; omega
    · rw [SpatialGrid.cellY]; omega

/-- C1: for every query point `(x, y)` and every particle inserted at its
current position into the per-frame grid (cell size `maxLinkDist = 140`),
if the particle's true squared Euclidean distance to `(x, y)` is at most
`140²` then `candidates(x, y)` yields its index — no false negatives, even
for positions outside the grid bounds, which clamp to edge buckets. -/
theorem grid_candidates_complete (w h : ℚ) (ps : List (ℕ × ℚ × ℚ)) (i : ℕ)
    (px py x y : ℚ) (hmem : (i, px, py) ∈ ps)
    (hdist : (px - x) ^ 2 + (py - y) ^ 2 ≤ 140 ^ 2) :
    i ∈ (insertAll (SpatialGrid.resize 140 w h) ps).candidates x y := by
  have hdx : |px - x| ≤ 140 := by
    rw [abs_le]
    constructor <;> nlinarith [sq_nonneg (py - y), sq_nonneg (px - x + 140),
      sq_nonneg (px - x - 140)]
  have hdy : |py - y| ≤ 140 := by
    rw [abs_le]
    constructor <;> nlinarith [sq_nonneg (px - x), sq_nonneg (py - y + 140),
      sq_nonneg (py - y - 140)]
  have hsize : (insertAll (SpatialGrid.resize 140 w h) ps).cellSize = 140 :=
    insertAll_cellSize ps _
  apply mem_candidates
  · rw [insertAll_cols]
    exact le_max_left _ _
  · rw [insertAll_rows]
    exact le_max_left _ _
  · exact cellX_dist _ hsize px x hdx
  · exact cellY_dist _ hsize py y hdy
  · rw [insertAll_indexFor]
    exact mem_cells_insertAll ps _ i px py hmem

/-- Witness for C1: on a 300×300 viewport a particle at `(5, 5)` is within
the cutoff of the query point `(10, 10)` and is indeed produced by
`candidates`. -/
theorem grid_candidates_complete_witness :
    ((0 : ℕ), (5 : ℚ), (5 : ℚ)) ∈ [((0 : ℕ), (5 : ℚ), (5 : ℚ))] ∧
    ((5 : ℚ) - 10) ^ 2 + ((5 : ℚ) - 10) ^ 2 ≤ 140 ^ 2 ∧
    0 ∈ (insertAll (SpatialGrid.resize 140 300 300)
      [((0 : ℕ), (5 : ℚ), (5 : ℚ))]).candidates 10 10 :=
  have h1 : ((0 : ℕ), (5 : ℚ), (5 : ℚ)) ∈ [((0 : ℕ), (5 : ℚ), (5 : ℚ))] :=
    List.mem_singleton.mpr rfl
  have h2 : ((5 : ℚ) - 10) ^ 2 + ((5 : ℚ) - 10) ^ 2 ≤ 140 ^ 2 := by norm_num
  ⟨h1, h2, grid_candidates_complete 300 300 _ 0 5 5 10 10 h1 h2⟩

/-- C10: a freshly constructed particle already satisfies the simulation
invariants: position inside `[0,width] × [0,height]` (hence inside the
wraparound margin band), speed in `[24, 56]` (so below `maxSpeed = 140`),
and a zero acceleration accumulator. -/
theorem makeParticle_invariants (width height r1 r2 r3 r4 r5 r6 r7 r8 r9 r10
    seed : ℝ) (id : ℕ) (hw : 0 ≤ width) (hh : 0 ≤ height)
    (h1 : 0 ≤ r1) (h1l : r1 < 1) (h2 : 0 ≤ r2) (h2l : r2 < 1)
    (h6 : 0 ≤ r6) (h6l : r6 < 1) :
    0 ≤ (makeParticle width height r1 r2 r3 r4 r5 r6 r7 r8 r9 r10
      seed id).p.1 ∧
    (makeParticle width height r1 r2 r3 r4 r5 r6 r7 r8 r9 r10
      seed id).p.1 ≤ width ∧
    0 ≤ (makeParticle width height r1 r2 r3 r4 r5 r6 r7 r8 r9 r10
      seed id).p.2 ∧
    (makeParticle width height r1 r2 r3 r4 r5 r6 r7 r8 r9 r10
      seed id).p.2 ≤ height ∧
    24 ≤ hypot (makeParticle width height r1 r2 r3 r4 r5 r6 r7 r8 r9 r10
      seed id).v.1
      (makeParticle width height r1 r2 r3 r4 r5 r6 r7 r8 r9 r10
        seed id).v.2 ∧
    hypot (makeParticle width height r1 r2 r3 r4 r5 r6 r7 r8 r9 r10
      seed id).v.1
      (makeParticle width height r1 r2 r3 r4 r5 r6 r7 r8 r9 r10
        seed id).v.2 ≤ 56 ∧
    hypot (makeParticle width height r1 r2 r3 r4 r5 r6 r7 r8 r9 r10
      seed id).v.1
      (makeParticle width height r1 r2 r3 r4 r5 r6 r7 r8 r9 r10
        seed id).v.2 ≤ 140 ∧
    (makeParticle width height r1 r2 r3 r4 r5 r6 r7 r8 r9 r10
      seed id).a = (0, 0) := by
  have hspeed : hypot (makeParticle width height r1 r2 r3 r4 r5 r6 r7 r8 r9
      r10 seed id).v.1
      (makeParticle width height r1 r2 r3 r4 r5 r6 r7 r8 r9 r10
        seed id).v.2 = 40 * (0.6 + r6 * 0.8) := by
    simp only [makeParticle]
    rw [hypot_flowDir_mul]
    rw [abs_of_nonneg (by nlinarith : (0 : ℝ) ≤ 40 * (0.6 + r6 * 0.8))]
  refine ⟨?_, ?_, ?_, ?_, ?_, ?_, ?_, rfl⟩
  · exact mul_nonneg h1 hw
  · exact mul_le_of_le_one_left hw (le_of_lt h1l)
  · exact mul_nonneg h2 hh
  · exact mul_le_of_le_one_left hh (le_of_lt h2l)
  · rw [hspeed]; nlinarith
  · rw [hspeed]; nlinarith
  · rw [hspeed]; nlinarith

/-- Witness for C10 at a 1920×1080 viewport with all random draws `1/2`. -/
theorem makeParticle_invariants_witness :
    ((0 : ℝ) ≤ 1920 ∧ (0 : ℝ) ≤ 1080 ∧ (0 : ℝ) ≤ 1 / 2 ∧
      (1 / 2 : ℝ) < 1) ∧
    (0 ≤ (makeParticle 1920 1080 (1 / 2) (1 / 2) (1 / 2) (1 / 2) (1 / 2)
      (1 / 2) (1 / 2) (1 / 2) (1 / 2) (1 / 2) 0 0).p.1 ∧
    (makeParticle 1920 1080 (1 / 2) (1 / 2) (1 / 2) (1 / 2) (1 / 2)
      (1 / 2) (1 / 2) (1 / 2) (1 / 2) (1 / 2) 0 0).p.1 ≤ 1920 ∧
    0 ≤ (makeParticle 1920 1080 (1 / 2) (1 / 2) (1 / 2) (1 / 2) (1 / 2)
      (1 / 2) (1 / 2) (1 / 2) (1 / 2) (1 / 2) 0 0).p.2 ∧
    (makeParticle 1920 1080 (1 / 2) (1 / 2) (1 / 2) (1 / 2) (1 / 2)
      (1 / 2) (1 / 2) (1 / 2) (1 / 2) (1 / 2) 0 0).p.2 ≤ 1080 ∧
    24 ≤ hypot (makeParticle 1920 1080 (1 / 2) (1 / 2) (1 / 2) (1 / 2)
        (1 / 2) (1 / 2) (1 / 2) (1 / 2) (1 / 2) (1 / 2) 0 0).v.1
      (makeParticle 1920 1080 (1 / 2) (1 / 2) (1 / 2) (1 / 2) (1 / 2)
        (1 / 2) (1 / 2) (1 / 2) (1 / 2) (1 / 2) 0 0).v.2 ∧
    hypot (makeParticle 1920 1080 (1 / 2) (1 / 2) (1 / 2) (1 / 2) (1 / 2)
        (1 / 2) (1 / 2) (1 / 2) (1 / 2) (1 / 2) 0 0).v.1
      (makeParticle 1920 1080 (1 / 2) (1 / 2) (1 / 2) (1 / 2) (1 / 2)
        (1 / 2) (1 / 2) (1 / 2) (1 / 2) (1 / 2) 0 0).v.2 ≤ 56 ∧
    hypot (makeParticle 1920 1080 (1 / 2) (1 / 2) (1 / 2) (1 / 2) (1 / 2)
        (1 / 2) (1 / 2) (1 / 2) (1 / 2) (1 / 2) 0 0).v.1
      (makeParticle 1920 1080 (1 / 2) (1 / 2) (1 / 2) (1 / 2) (1 / 2)
        (1 / 2) (1 / 2) (1 / 2) (1 / 2) (1 / 2) 0 0).v.2 ≤ 140 ∧
    (makeParticle 1920 1080 (1 / 2) (1 / 2) (1 / 2) (1 / 2) (1 / 2)
      (1 / 2) (1 / 2) (1 / 2) (1 / 2) (1 / 2) 0 0).a = (0, 0)) :=
  ⟨⟨by norm_num, by norm_num, by norm_num, by norm_num⟩,
    makeParticle_invariants 1920 1080 (1 / 2) (1 / 2) (1 / 2) (1 / 2)
      (1 / 2) (1 / 2) (1 / 2) (1 / 2) (1 / 2) (1 / 2) 0 0
      (by norm_num) (by norm_num) (by norm_num) (by norm_num)
      (by norm_num) (by norm_num) (by norm_num) (by norm_num)⟩

/-- C3: at the end of every physics step each wrapped coordinate lies in
`[-margin, limit + margin]` with `margin = 10` (`limit` is the viewport
width resp. height, at least 1 by `resize`); a coordinate below `-10` is
teleported to `limit + 10`, one above `limit + 10` is teleported to `-10`,
and the teleported values themselves lie in the margin band. -/
theorem wrapCoord_within_margin (w x : ℚ) (hw : 1 ≤ w) :
    (-10 ≤ wrapCoord w x ∧ wrapCoord w x ≤ w + 10) ∧
    (x < -10 → wrapCoord w x = w + 10) ∧
    (x > w + 10 → wrapCoord w x = -10) := by
  simp only [wrapCoord]
  split_ifs <;> refine ⟨⟨?_, ?_⟩, fun hx => ?_, fun hx => ?_⟩ <;> linarith

/-- Witness for C3: a concrete out-of-bounds coordinate on a 768-pixel
viewport is wrapped into the margin band. -/
theorem wrapCoord_within_margin_witness :
    (1 : ℚ) ≤ 768 ∧
    (((-10 ≤ wrapCoord 768 900 ∧ wrapCoord 768 900 ≤ 768 + 10) ∧
      ((900 : ℚ) < -10 → wrapCoord 768 900 = 768 + 10) ∧
      ((900 : ℚ) > 768 + 10 → wrapCoord 768 900 = -10))) :=
  ⟨by norm_num, wrapCoord_within_margin 768 900 (by norm_num)⟩

/-- C8: the resize target particle count is
`max(80, ⌊220 * (width*height)/(1920*1080)⌋)`; a 1920×1080 viewport yields
exactly 220 particles and a 960×540 viewport yields exactly
`max(80, 55) = 80`. -/
theorem targetCount_formula :
    targetCount 1920 1080 = 220 ∧ targetCount 960 540 = 80 ∧
    ∀ w h : ℕ, (targetCount w h : ℤ) =
      max 80 ⌊(220 : ℚ) * ((w * h : ℚ) / (1920 * 1080))⌋ := by
  refine ⟨by norm_num [targetCount]; rfl,
    by norm_num [targetCount], fun w h => ?_⟩
  have h0 : (0 : ℚ) ≤ 220 * ((w * h : ℚ) / (1920 * 1080)) := by positivity
  simp [targetCount, Nat.cast_max,
    Int.toNat_of_nonneg (Int.floor_nonneg.mpr h0)]

/-- C9: a resize that grows the particle list from N to M appends exactly
`M - N` freshly constructed particles (with ids `N, N+1, …, M-1`) and leaves
the first N list entries — hence each retained particle's entire record —
unchanged; a shrinking resize truncates to exactly the first M entries. -/
theorem resizeParticles_spec {P : Type} (ps : List P) (target : ℕ)
    (mk : ℕ → P) :
    (ps.length < target →
      resizeParticles ps target mk =
        ps ++ (List.range' ps.length (target - ps.length)).map mk ∧
      (resizeParticles ps target mk).take ps.length = ps ∧
      (resizeParticles ps target mk).length = target) ∧
    (target < ps.length →
      resizeParticles ps target mk = ps.take target ∧
      (resizeParticles ps target mk).length = target) := by
  constructor
  · intro hlt
    unfold resizeParticles
    by_cases h0 : ps.length = 0
    · rw [List.length_eq_zero] at h0
      subst h0
      simp [List.range_eq_range']
    · rw [if_neg h0, if_pos hlt]
      refine ⟨rfl, List.take_left ps _, ?_⟩
      simp [List.length_append, List.length_range']
      omega
  · intro hgt
    have h0 : ps.length ≠ 0 := by omega
    have hnl : ¬ ps.length < target := by omega
    unfold resizeParticles
    rw [if_neg h0, if_neg hnl, if_pos hgt]
    exact ⟨rfl, by simp [List.length_take]; omega⟩

/-- Witness for C9: growing a 2-element list to 4 appends the two fresh
records with ids 2 and 3; truncation retains the prefix. -/
theorem resizeParticles_spec_witness :
    (([10, 20] : List ℕ).length < 4 ∧
      (resizeParticles [10, 20] 4 (fun i => 100 + i) =
        [10, 20] ++ (List.range' ([10, 20] : List ℕ).length
          (4 - ([10, 20] : List ℕ).length)).map (fun i => 100 + i) ∧
      (resizeParticles [10, 20] 4 (fun i => 100 + i)).take
          ([10, 20] : List ℕ).length = [10, 20] ∧
      (resizeParticles [10, 20] 4 (fun i => 100 + i)).length = 4)) ∧
    (1 < ([10, 20] : List ℕ).length ∧
      (resizeParticles [10, 20] 1 (fun i => 100 + i) =
        ([10, 20] : List ℕ).take 1 ∧
      (resizeParticles [10, 20] 1 (fun i => 100 + i)).length = 1)) :=
  ⟨⟨by decide, (resizeParticles_spec [10, 20] 4 (fun i => 100 + i)).1
      (by decide)⟩,
   ⟨by decide, (resizeParticles_spec [10, 20] 1 (fun i => 100 + i)).2
      (by decide)⟩⟩

/-- C5 counterexample: with a null drawing context the engine does not
decline to start silently — the mount itself throws (during the initial
`resize()`), and every subsequent invocation of the `resize` handler throws
again, so repeated throwing does occur, contradicting the claim. -/
theorem mount_nullCtx_counterexample :
    (mount false).2 = some MountError.nullCtx ∧
    runResize false = Except.error MountError.nullCtx :=
  ⟨rfl, rfl⟩

/-- C5 amended: with a null drawing context no animation frame is ever
scheduled and no cleanup is registered, but the engine aborts by throwing:
the six listeners are already registered when the initial `resize()` throws,
each later `resize` event throws again, and teardown never runs (the
listeners leak).  With a valid context the mount completes, schedules the
frame loop and registers the cleanup. -/
theorem mount_nullCtx_behavior :
    mount false = (⟨6, false, false⟩, some MountError.nullCtx) ∧
    runResize false = Except.error MountError.nullCtx ∧
    mount true = (⟨6, true, true⟩, none) :=
  ⟨rfl, rfl, rfl⟩

end NodeNetwork
